import Mathlib

/-!
Shallow embedding of the inotifyx event-stream core
(src/inotifyx/__init__.py): the wire-record decoder inside
get_events_iter, the mask-description formatter, the readiness-gated
read loop, and the Session close path.  Byte buffers are lists of
naturals below 256; machine integers are Nat/Int with explicit
2^32 arithmetic.
-/

namespace Inotifyx

/-- A decoded inotify event, mirroring the Python InotifyEvent class.
The name is a list of Unicode code points when present (Python str),
or absent (Python None). -/
structure InotifyEvent where
  wd : Int
  mask : Nat
  cookie : Nat
  name : Option (List Nat)
deriving DecidableEq, Repr

/-- Errors the decoding loop can raise: ValueError from
ctypes.Structure.from_buffer_copy on a short buffer, and
UnicodeDecodeError from bytes.decode on invalid UTF-8. -/
inductive DecodeErr where
  | valueError
  | unicodeDecodeError
deriving DecidableEq, Repr

/-- Read a 32-bit little-endian unsigned integer from the first four
bytes of a buffer (out-of-range positions read as 0; callers guard
the length).  Mirrors the ctypes struct field layout of
_InotifyEvent: native little-endian u32 fields. -/
def readU32LE (l : List Nat) : Nat :=
  l.getD 0 0 + 256 * l.getD 1 0 + 65536 * l.getD 2 0 + 16777216 * l.getD 3 0

/-- Interpret a 32-bit unsigned value as the signed c_int field wd of
_InotifyEvent (two's complement). -/
def toSigned32 (n : Nat) : Int :=
  if n < 2147483648 then (n : Int) else (n : Int) - 4294967296

/-- Python bytes.rstrip applied with a NUL argument: remove all
trailing zero bytes. -/
def rstripNul : List Nat → List Nat
  | [] => []
  | b :: bs =>
    match rstripNul bs with
    | [] => if b = 0 then [] else [b]
    | r => b :: r

/-- A Unicode scalar value: what Python str code points range over. -/
def validCodepoint (c : Nat) : Prop :=
  c < 1114112 ∧ (c < 55296 ∨ 57343 < c)

instance (c : Nat) : Decidable (validCodepoint c) := by
  unfold validCodepoint
  infer_instance

/-- UTF-8 encoding of one code point. -/
def utf8EncodeChar (c : Nat) : List Nat :=
  if c < 128 then [c]
  else if c < 2048 then [192 + c / 64, 128 + c % 64]
  else if c < 65536 then [224 + c / 4096, 128 + c / 64 % 64, 128 + c % 64]
  else [240 + c / 262144, 128 + c / 4096 % 64, 128 + c / 64 % 64, 128 + c % 64]

/-- UTF-8 encoding of a sequence of code points. -/
def utf8Encode : List Nat → List Nat
  | [] => []
  | c :: cs => utf8EncodeChar c ++ utf8Encode cs

/-- Decode one code point from the head of a byte buffer under strict
UTF-8 (as Python bytes.decode does): stray continuation bytes,
truncated sequences, overlong encodings, surrogates and code points
above 0x10FFFF are all rejected.  Returns the code point and the
remaining bytes. -/
def utf8DecodeOne (l : List Nat) : Option (Nat × List Nat) :=
  if l.length = 0 then none
  else if l.getD 0 0 < 128 then some (l.getD 0 0, l.drop 1)
  else if l.getD 0 0 < 194 then none
  else if l.getD 0 0 < 224 then
    if 2 ≤ l.length ∧ 128 ≤ l.getD 1 0 ∧ l.getD 1 0 < 192 then
      some ((l.getD 0 0 - 192) * 64 + (l.getD 1 0 - 128), l.drop 2)
    else none
  else if l.getD 0 0 < 240 then
    if 3 ≤ l.length ∧ 128 ≤ l.getD 1 0 ∧ l.getD 1 0 < 192 ∧
        128 ≤ l.getD 2 0 ∧ l.getD 2 0 < 192 then
      if 2048 ≤ (l.getD 0 0 - 224) * 4096 + (l.getD 1 0 - 128) * 64 + (l.getD 2 0 - 128) ∧
          ((l.getD 0 0 - 224) * 4096 + (l.getD 1 0 - 128) * 64 + (l.getD 2 0 - 128) < 55296 ∨
           57343 < (l.getD 0 0 - 224) * 4096 + (l.getD 1 0 - 128) * 64 + (l.getD 2 0 - 128)) then
        some ((l.getD 0 0 - 224) * 4096 + (l.getD 1 0 - 128) * 64 + (l.getD 2 0 - 128), l.drop 3)
      else none
    else none
  else if l.getD 0 0 < 245 then
    if 4 ≤ l.length ∧ 128 ≤ l.getD 1 0 ∧ l.getD 1 0 < 192 ∧
        128 ≤ l.getD 2 0 ∧ l.getD 2 0 < 192 ∧ 128 ≤ l.getD 3 0 ∧ l.getD 3 0 < 192 then
      if 65536 ≤ (l.getD 0 0 - 240) * 262144 + (l.getD 1 0 - 128) * 4096 +
          (l.getD 2 0 - 128) * 64 + (l.getD 3 0 - 128) ∧
          (l.getD 0 0 - 240) * 262144 + (l.getD 1 0 - 128) * 4096 +
          (l.getD 2 0 - 128) * 64 + (l.getD 3 0 - 128) < 1114112 then
        some ((l.getD 0 0 - 240) * 262144 + (l.getD 1 0 - 128) * 4096 +
          (l.getD 2 0 - 128) * 64 + (l.getD 3 0 - 128), l.drop 4)
      else none
    else none
  else none

/-- Decode a whole byte buffer one code point at a time, with fuel
(one code point consumes at least one byte, so fuel equal to the
buffer length always suffices). -/
def utf8DecodeLoop : Nat → List Nat → Option (List Nat)
  | 0, l => if l.length = 0 then some [] else none
  | fuel + 1, l =>
    if l.length = 0 then some []
    else
      match utf8DecodeOne l with
      | none => none
      | some (c, rest) => (utf8DecodeLoop fuel rest).map (fun cs => c :: cs)

/-- Strict UTF-8 decoding of a byte buffer, as performed by Python
bytes.decode with no arguments: the code points, or nothing on
invalid input. -/
def utf8Decode (l : List Nat) : Option (List Nat) :=
  utf8DecodeLoop l.length l

/-- One iteration of the while loop in get_events_iter: read the
16-byte _InotifyEvent header via from_buffer_copy (ValueError when
fewer than 16 bytes remain), then slice the declared name bytes
(Python slicing truncates silently), strip trailing NULs, decode as
UTF-8, and map the empty string to an absent name.  Returns the
event together with the rest of the buffer. -/
def decodeStep (buf : List Nat) : Except DecodeErr (InotifyEvent × List Nat) :=
  if buf.length < 16 then Except.error DecodeErr.valueError
  else if 0 < readU32LE (buf.drop 12) then
    match utf8Decode (rstripNul ((buf.drop 16).take (readU32LE (buf.drop 12)))) with
    | none => Except.error DecodeErr.unicodeDecodeError
    | some cps =>
      Except.ok
        (⟨toSigned32 (readU32LE buf), readU32LE (buf.drop 4), readU32LE (buf.drop 8),
          if cps = [] then none else some cps⟩,
         buf.drop (16 + readU32LE (buf.drop 12)))
  else
    Except.ok
      (⟨toSigned32 (readU32LE buf), readU32LE (buf.drop 4), readU32LE (buf.drop 8), none⟩,
       buf.drop 16)

/-- The while loop of get_events_iter over one read buffer, with fuel
(each iteration consumes at least 16 bytes, so fuel equal to the
buffer length always suffices).  Returns the events yielded in order
plus the error, if any, that stopped the generator. -/
def decodeLoop (fuel : Nat) (buf : List Nat) : List InotifyEvent × Option DecodeErr :=
  match fuel with
  | 0 => ([], none)
  | fuel + 1 =>
    if buf.isEmpty then ([], none)
    else
      match decodeStep buf with
      | Except.error e => ([], some e)
      | Except.ok (ev, rest) =>
        let r := decodeLoop fuel rest
        (ev :: r.1, r.2)

/-- Decode every record of one read buffer, exactly as the while loop
of get_events_iter does. -/
def decodeEvents (buf : List Nat) : List InotifyEvent × Option DecodeErr :=
  decodeLoop buf.length buf

/-- The module-level constants mapping, in Python dict insertion
order: every module attribute starting with IN underscore in
declaration order, then the BUF_LEN entry assigned on the line
BUF_LEN = constants of BUF_LEN = max(sizeof + NAME_MAX + 1, 32768),
which evaluates to 32768. -/
def constants : List (String × Nat) :=
  [("IN_ACCESS", 1), ("IN_MODIFY", 2), ("IN_ATTRIB", 4), ("IN_CLOSE_WRITE", 8),
   ("IN_CLOSE_NOWRITE", 16), ("IN_CLOSE", 24), ("IN_OPEN", 32), ("IN_MOVED_FROM", 64),
   ("IN_MOVED_TO", 128), ("IN_MOVE", 192), ("IN_CREATE", 256), ("IN_DELETE", 512),
   ("IN_DELETE_SELF", 1024), ("IN_MOVE_SELF", 2048), ("IN_UNMOUNT", 8192),
   ("IN_Q_OVERFLOW", 16384), ("IN_IGNORED", 32768), ("IN_ONLYDIR", 16777216),
   ("IN_DONT_FOLLOW", 33554432), ("IN_EXCL_UNLINK", 67108864),
   ("IN_MASK_CREATE", 268435456), ("IN_MASK_ADD", 536870912),
   ("IN_ISDIR", 1073741824), ("IN_ONESHOT", 2147483648),
   ("IN_ALL_EVENTS", 4095), ("BUF_LEN", 32768)]

/-- InotifyEvent.get_mask_description: append the key of each
constants entry whose value overlaps the mask with no bit of the
entry missing (overlap truthy and overlap XOR value falsy), join
with a vertical bar, or return the literal string 0 when nothing
matched. -/
def get_mask_description (mask : Nat) : String :=
  let parts :=
    (constants.filter
      (fun p => mask &&& p.2 != 0 && (mask &&& p.2) ^^^ p.2 == 0)).map Prod.fst
  if parts.isEmpty then "0" else String.intercalate "|" parts

/-- The condition the spec states for describe: the entry value ANDed
with the mask is non-zero and equals the entry value, entries taken
in declaration order. -/
def describeSpec (mask : Nat) : String :=
  let parts :=
    (constants.filter
      (fun p => decide (mask &&& p.2 ≠ 0 ∧ mask &&& p.2 = p.2))).map Prod.fst
  if parts.isEmpty then "0" else String.intercalate "|" parts

/-- Modelled from the spec: the external readiness-wait primitive
(selectors select on the one registered descriptor).  With data
pending one ready key is reported; with no data pending, a zero
timeout checks once without blocking and reports no keys, a positive
timeout reports no keys on expiry, and an indefinite timeout blocks
(no return, modelled as the absent outcome). -/
def selectKeys (pending : Bool) (timeout : Option ℚ) : Option (List Unit) :=
  if pending then some [()]
  else
    match timeout with
    | some _ => some []
    | none => none

/-- get_events_iter over one readiness cycle: select, then for each
ready key one raw os.read of up to BUF_LEN bytes (the buffer the
kernel returns is the buf argument), decoded by the while loop.  The
result is the yielded events, the error that stopped the generator
if any, and the number of raw reads performed; the outer Option is
the indefinite-blocking outcome of the wait. -/
def get_events_iter (pending : Bool) (timeout : Option ℚ) (buf : List Nat) :
    Option (List InotifyEvent × Option DecodeErr × Nat) :=
  (selectKeys pending timeout).map
    (fun keys =>
      match keys with
      | [] => ([], none, 0)
      | _ :: _ => ((decodeEvents buf).1, (decodeEvents buf).2, 1))

/-- get_events: register the descriptor on a fresh default selector
and return list(get_events_iter(fd, selector, timeout)).  Listing a
generator that raises propagates the exception and discards the
prefix, hence the Except result; the Nat counts raw reads. -/
def get_events (pending : Bool) (timeout : Option ℚ) (buf : List Nat) :
    Option (Except DecodeErr (List InotifyEvent) × Nat) :=
  (selectKeys pending timeout).map
    (fun keys =>
      match keys with
      | [] => (Except.ok [], 0)
      | _ :: _ =>
        match decodeEvents buf with
        | (_, some e) => (Except.error e, 1)
        | (evs, none) => (Except.ok evs, 1))

/-- State visible to the Session close path: whether the channel
descriptor is still open, whether the selector registration is still
held, and how many times the raw os.close primitive has been
invoked on the descriptor number. -/
structure SessionSys where
  fdOpen : Bool
  selectorOpen : Bool
  rawCloseCalls : Nat
deriving DecidableEq, Repr

/-- Platform error raised by the second raw close of one descriptor. -/
inductive OSErr where
  | ebadf
deriving DecidableEq, Repr

/-- selectors BaseSelector.close: releases the registration;
idempotent. -/
def selectorClose (s : SessionSys) : SessionSys :=
  { s with selectorOpen := false }

/-- os.close on the channel descriptor: the raw close primitive is
invoked unconditionally (the call is always made); it fails with
EBADF when the descriptor is already closed. -/
def osClose (s : SessionSys) : SessionSys × Option OSErr :=
  if s.fdOpen then
    ({ s with fdOpen := false, rawCloseCalls := s.rawCloseCalls + 1 }, none)
  else
    ({ s with rawCloseCalls := s.rawCloseCalls + 1 }, some OSErr.ebadf)

/-- Inotify.close: self.selector.close() then os.close(self.fd), with
no guard state on the Session. -/
def sessionClose (s : SessionSys) : SessionSys × Option OSErr :=
  osClose (selectorClose s)

/-- Inotify exit (context-manager exit on any path) calls close. -/
def sessionExit (s : SessionSys) : SessionSys × Option OSErr :=
  sessionClose s

/-- One wire record as laid out by the kernel: header fields plus the
trailing name bytes (whose declared length is their count). -/
structure WireRecord where
  wd : Int
  mask : Nat
  cookie : Nat
  nameBytes : List Nat
deriving DecidableEq, Repr

/-- Little-endian byte serialization of a 32-bit unsigned value. -/
def u32LE (n : Nat) : List Nat :=
  [n % 256, n / 256 % 256, n / 65536 % 256, n / 16777216 % 256]

/-- Little-endian two's-complement serialization of a signed 32-bit
value. -/
def i32LE (z : Int) : List Nat :=
  u32LE (z % 4294967296).toNat

/-- Serialize one wire record: wd, mask, cookie, name length, then the
name bytes. -/
def encodeWire (r : WireRecord) : List Nat :=
  i32LE r.wd ++ u32LE r.mask ++ u32LE r.cookie ++ u32LE r.nameBytes.length ++ r.nameBytes

/-- Concatenate the serializations of a list of wire records. -/
def encodeAll : List WireRecord → List Nat
  | [] => []
  | r :: rs => encodeWire r ++ encodeAll rs

/-- The event a valid wire record decodes to. -/
def wireEvent (r : WireRecord) : InotifyEvent :=
  match utf8Decode (rstripNul r.nameBytes) with
  | some cps => ⟨r.wd, r.mask, r.cookie, if cps = [] then none else some cps⟩
  | none => ⟨r.wd, r.mask, r.cookie, none⟩

/-- A wire record is valid when its fields fit their 32-bit header
slots and its stripped name bytes are decodable text. -/
def ValidWire (r : WireRecord) : Prop :=
  -2147483648 ≤ r.wd ∧ r.wd < 2147483648 ∧
  r.mask < 4294967296 ∧ r.cookie < 4294967296 ∧
  r.nameBytes.length < 4294967296 ∧
  (utf8Decode (rstripNul r.nameBytes)).isSome

/-! ### Helper lemmas: byte serialization -/

theorem length_u32LE (n : Nat) : (u32LE n).length = 4 := by
  simp [u32LE]

theorem readU32LE_u32LE_append (n : Nat) (t : List Nat) (h : n < 4294967296) :
    readU32LE (u32LE n ++ t) = n := by
  simp only [u32LE, List.cons_append, List.nil_append, readU32LE,
    List.getD_cons_zero, List.getD_cons_succ]
  omega

theorem drop_four_u32LE (n : Nat) (t : List Nat) : (u32LE n ++ t).drop 4 = t := by
  simp [u32LE]

theorem toSigned32_readU32LE_i32LE (z : Int) (t : List Nat)
    (h1 : -2147483648 ≤ z) (h2 : z < 2147483648) :
    toSigned32 (readU32LE (i32LE z ++ t)) = z := by
  rw [i32LE, readU32LE_u32LE_append _ _ (by omega)]
  unfold toSigned32
  split <;> omega

theorem length_encodeWire (r : WireRecord) :
    (encodeWire r).length = 16 + r.nameBytes.length := by
  simp [encodeWire, i32LE, length_u32LE]
  omega

theorem decodeStep_encodeWire (r : WireRecord) (rest : List Nat) (hv : ValidWire r) :
    decodeStep (encodeWire r ++ rest) = Except.ok (wireEvent r, rest) := by
  obtain ⟨hw1, hw2, hm, hc, hn, hdec⟩ := hv
  have hassoc : encodeWire r ++ rest =
      i32LE r.wd ++ (u32LE r.mask ++ (u32LE r.cookie ++
        (u32LE r.nameBytes.length ++ (r.nameBytes ++ rest)))) := by
    simp [encodeWire, List.append_assoc]
  have hlen : (encodeWire r ++ rest).length = 16 + r.nameBytes.length + rest.length := by
    rw [List.length_append, length_encodeWire]
  have hwd : toSigned32 (readU32LE (encodeWire r ++ rest)) = r.wd := by
    rw [hassoc]
    exact toSigned32_readU32LE_i32LE _ _ hw1 hw2
  have hdrop4 : (encodeWire r ++ rest).drop 4 =
      u32LE r.mask ++ (u32LE r.cookie ++
        (u32LE r.nameBytes.length ++ (r.nameBytes ++ rest))) := by
    rw [hassoc, i32LE, drop_four_u32LE]
  have hmask : readU32LE ((encodeWire r ++ rest).drop 4) = r.mask := by
    rw [hdrop4]
    exact readU32LE_u32LE_append _ _ hm
  have hdrop8 : (encodeWire r ++ rest).drop 8 =
      u32LE r.cookie ++ (u32LE r.nameBytes.length ++ (r.nameBytes ++ rest)) := by
    rw [show (8 : Nat) = 4 + 4 from rfl, ← List.drop_drop, hdrop4, drop_four_u32LE]
  have hcookie : readU32LE ((encodeWire r ++ rest).drop 8) = r.cookie := by
    rw [hdrop8]
    exact readU32LE_u32LE_append _ _ hc
  have hdrop12 : (encodeWire r ++ rest).drop 12 =
      u32LE r.nameBytes.length ++ (r.nameBytes ++ rest) := by
    rw [show (12 : Nat) = 8 + 4 from rfl, ← List.drop_drop, hdrop8, drop_four_u32LE]
  have hlenfield : readU32LE ((encodeWire r ++ rest).drop 12) = r.nameBytes.length := by
    rw [hdrop12]
    exact readU32LE_u32LE_append _ _ hn
  have hdrop16 : (encodeWire r ++ rest).drop 16 = r.nameBytes ++ rest := by
    rw [show (16 : Nat) = 12 + 4 from rfl, ← List.drop_drop, hdrop12, drop_four_u32LE]
  have hdropAll : (encodeWire r ++ rest).drop (16 + r.nameBytes.length) = rest := by
    rw [← List.drop_drop, hdrop16, List.drop_left]
  unfold decodeStep
  rw [if_neg (by omega), hwd, hmask, hcookie, hlenfield]
  by_cases h0 : 0 < r.nameBytes.length
  · rw [if_pos h0, hdrop16, List.take_left]
    obtain ⟨cps, hcps⟩ := Option.isSome_iff_exists.mp hdec
    rw [hcps, hdropAll, wireEvent, hcps]
  · rw [if_neg h0, hdrop16]
    have hnil : r.nameBytes = [] := List.eq_nil_of_length_eq_zero (by omega)
    rw [hnil, List.nil_append, wireEvent, hnil]
    rfl

/-! ### Helper lemmas: the decode loop -/

theorem decodeLoop_nil (fuel : Nat) : decodeLoop fuel [] = ([], none) := by
  cases fuel <;> simp [decodeLoop]

theorem decodeStep_length (buf : List Nat) (ev : InotifyEvent) (rest : List Nat)
    (h : decodeStep buf = Except.ok (ev, rest)) : rest.length + 16 ≤ buf.length := by
  unfold decodeStep at h
  split at h
  · exact absurd h (by simp)
  · rename_i hlen
    split at h
    · split at h
      · exact absurd h (by simp)
      · rw [Except.ok.injEq, Prod.mk.injEq] at h
        rw [← h.2, List.length_drop]
        omega
    · rw [Except.ok.injEq, Prod.mk.injEq] at h
      rw [← h.2, List.length_drop]
      omega

theorem decodeLoop_cons_ok (fuel : Nat) (buf : List Nat) (ev : InotifyEvent)
    (rest : List Nat) (hne : buf.isEmpty = false)
    (h : decodeStep buf = Except.ok (ev, rest)) :
    decodeLoop (fuel + 1) buf =
      (ev :: (decodeLoop fuel rest).1, (decodeLoop fuel rest).2) := by
  rw [decodeLoop, if_neg (by rw [hne]; exact Bool.false_ne_true), h]

theorem decodeLoop_cons_error (fuel : Nat) (buf : List Nat) (e : DecodeErr)
    (hne : buf.isEmpty = false) (h : decodeStep buf = Except.error e) :
    decodeLoop (fuel + 1) buf = ([], some e) := by
  rw [decodeLoop, if_neg (by rw [hne]; exact Bool.false_ne_true), h]

theorem decodeLoop_fuel (f : Nat) : ∀ (g : Nat) (buf : List Nat),
    buf.length ≤ f → buf.length ≤ g → decodeLoop f buf = decodeLoop g buf := by
  induction f with
  | zero =>
    intro g buf hf _
    have : buf = [] := List.eq_nil_of_length_eq_zero (by omega)
    rw [this, decodeLoop_nil, decodeLoop_nil]
  | succ f ih =>
    intro g buf hf hg
    match g, buf with
    | _, [] => rw [decodeLoop_nil, decodeLoop_nil]
    | 0, b :: bs => simp at hg
    | g + 1, b :: bs =>
      have hne : (b :: bs).isEmpty = false := rfl
      match hstep : decodeStep (b :: bs) with
      | Except.error e =>
        rw [decodeLoop_cons_error f _ e hne hstep, decodeLoop_cons_error g _ e hne hstep]
      | Except.ok (ev, rest) =>
        have hr := decodeStep_length _ _ _ hstep
        rw [decodeLoop_cons_ok f _ ev rest hne hstep, decodeLoop_cons_ok g _ ev rest hne hstep,
          ih g rest (by simp only [List.length_cons] at hf hr; omega)
            (by simp only [List.length_cons] at hg hr; omega)]

theorem length_encodeAll (rs : List WireRecord) :
    (encodeAll rs).length = (rs.map (fun r => 16 + r.nameBytes.length)).sum := by
  induction rs with
  | nil => rfl
  | cons r rs ih =>
    rw [encodeAll, List.length_append, length_encodeWire, List.map_cons, List.sum_cons, ih]

theorem decodeLoop_encodeAll (rs : List WireRecord) : ∀ (fuel : Nat),
    (∀ r ∈ rs, ValidWire r) → (encodeAll rs).length ≤ fuel →
    decodeLoop fuel (encodeAll rs) = (rs.map wireEvent, none) := by
  induction rs with
  | nil =>
    intro fuel _ _
    rw [encodeAll, decodeLoop_nil, List.map_nil]
  | cons r rs ih =>
    intro fuel hv hf
    have hvr : ValidWire r := hv r (by simp)
    have hlen : (encodeAll (r :: rs)).length =
        16 + r.nameBytes.length + (encodeAll rs).length := by
      rw [encodeAll, List.length_append, length_encodeWire]
    match fuel with
    | 0 => omega
    | fuel + 1 =>
      have hpos : 0 < (encodeAll (r :: rs)).length := by omega
      have hne : (encodeAll (r :: rs)).isEmpty = false := by
        cases hE : encodeAll (r :: rs) with
        | nil => rw [hE] at hpos; exact absurd hpos (by simp)
        | cons x xs => rfl
      have hstep : decodeStep (encodeAll (r :: rs)) = Except.ok (wireEvent r, encodeAll rs) := by
        rw [show encodeAll (r :: rs) = encodeWire r ++ encodeAll rs from rfl]
        exact decodeStep_encodeWire r _ hvr
      rw [decodeLoop_cons_ok fuel _ _ _ hne hstep,
        ih fuel (fun x hx => hv x (by simp [hx])) (by omega), List.map_cons]

theorem decodeEvents_encodeAll (rs : List WireRecord) (hv : ∀ r ∈ rs, ValidWire r) :
    decodeEvents (encodeAll rs) = (rs.map wireEvent, none) :=
  decodeLoop_encodeAll rs (encodeAll rs).length hv (Nat.le_refl _)

/-! ### Helper lemmas: UTF-8 round trip -/

theorem utf8DecodeOne_utf8EncodeChar (c : Nat) (h : validCodepoint c) (t : List Nat) :
    utf8DecodeOne (utf8EncodeChar c ++ t) = some (c, t) := by
  obtain ⟨hlt, hsur⟩ := h
  unfold utf8DecodeOne
  by_cases h1 : c < 128
  · simp only [utf8EncodeChar, if_pos h1, List.cons_append, List.nil_append,
      List.length_cons, List.getD_cons_zero, List.getD_cons_succ,
      List.drop_succ_cons, List.drop_zero]
    rfl
  · by_cases h2 : c < 2048
    · simp only [utf8EncodeChar, if_neg h1, if_pos h2, List.cons_append, List.nil_append,
        List.length_cons, List.getD_cons_zero, List.getD_cons_succ,
        List.drop_succ_cons, List.drop_zero]
      rw [if_neg (by omega), if_neg (by omega), if_neg (by omega), if_pos (by omega),
        if_pos (by omega)]
      have hc : (192 + c / 64 - 192) * 64 + (128 + c % 64 - 128) = c := by omega
      rw [hc]
    · by_cases h3 : c < 65536
      · simp only [utf8EncodeChar, if_neg h1, if_neg h2, if_pos h3, List.cons_append,
          List.nil_append, List.length_cons, List.getD_cons_zero, List.getD_cons_succ,
          List.drop_succ_cons, List.drop_zero]
        rw [if_neg (by omega), if_neg (by omega), if_neg (by omega), if_neg (by omega),
          if_pos (by omega), if_pos (by omega), if_pos (by omega)]
        have hc : (224 + c / 4096 - 224) * 4096 + (128 + c / 64 % 64 - 128) * 64 +
            (128 + c % 64 - 128) = c := by omega
        rw [hc]
      · simp only [utf8EncodeChar, if_neg h1, if_neg h2, if_neg h3, List.cons_append,
          List.nil_append, List.length_cons, List.getD_cons_zero, List.getD_cons_succ,
          List.drop_succ_cons, List.drop_zero]
        rw [if_neg (by omega), if_neg (by omega), if_neg (by omega), if_neg (by omega),
          if_neg (by omega), if_pos (by omega), if_pos (by omega), if_pos (by omega)]
        have hc : (240 + c / 262144 - 240) * 262144 + (128 + c / 4096 % 64 - 128) * 4096 +
            (128 + c / 64 % 64 - 128) * 64 + (128 + c % 64 - 128) = c := by omega
        rw [hc]

theorem utf8DecodeOne_length (l : List Nat) (c : Nat) (rest : List Nat)
    (h : utf8DecodeOne l = some (c, rest)) : rest.length < l.length := by
  unfold utf8DecodeOne at h
  repeat' split at h
  all_goals
    first
    | (rw [Option.some.injEq, Prod.mk.injEq] at h
       rw [← h.2, List.length_drop]
       omega)
    | exact absurd h (by simp)

theorem length_utf8EncodeChar (c : Nat) :
    1 ≤ (utf8EncodeChar c).length ∧ (utf8EncodeChar c).length ≤ 4 := by
  unfold utf8EncodeChar
  repeat' split
  all_goals simp

theorem utf8DecodeLoop_len0 (fuel : Nat) (l : List Nat) (h : l.length = 0) :
    utf8DecodeLoop fuel l = some [] := by
  cases fuel with
  | zero => rw [utf8DecodeLoop, if_pos h]
  | succ f => rw [utf8DecodeLoop, if_pos h]

theorem utf8DecodeLoop_succ_some (fuel : Nat) (l : List Nat) (c : Nat) (rest : List Nat)
    (h0 : ¬l.length = 0) (h : utf8DecodeOne l = some (c, rest)) :
    utf8DecodeLoop (fuel + 1) l = (utf8DecodeLoop fuel rest).map (fun cs => c :: cs) := by
  rw [utf8DecodeLoop, if_neg h0, h]

theorem utf8DecodeLoop_succ_none (fuel : Nat) (l : List Nat)
    (h0 : ¬l.length = 0) (h : utf8DecodeOne l = none) :
    utf8DecodeLoop (fuel + 1) l = none := by
  rw [utf8DecodeLoop, if_neg h0, h]

theorem utf8DecodeLoop_utf8Encode (cps : List Nat) : ∀ (fuel : Nat),
    (∀ c ∈ cps, validCodepoint c) → (utf8Encode cps).length ≤ fuel →
    utf8DecodeLoop fuel (utf8Encode cps) = some cps := by
  induction cps with
  | nil =>
    intro fuel _ _
    exact utf8DecodeLoop_len0 fuel _ rfl
  | cons c cs ih =>
    intro fuel hv hf
    have hvc : validCodepoint c := hv c (by simp)
    have hchar := length_utf8EncodeChar c
    have hlen : (utf8Encode (c :: cs)).length =
        (utf8EncodeChar c).length + (utf8Encode cs).length := by
      rw [utf8Encode, List.length_append]
    match fuel with
    | 0 => omega
    | fuel + 1 =>
      rw [show utf8Encode (c :: cs) = utf8EncodeChar c ++ utf8Encode cs from rfl,
        utf8DecodeLoop_succ_some fuel _ c (utf8Encode cs) (by rw [List.length_append]; omega)
          (utf8DecodeOne_utf8EncodeChar c hvc _),
        ih fuel (fun x hx => hv x (by simp [hx])) (by omega)]
      rfl

theorem utf8Decode_utf8Encode (cps : List Nat) (hv : ∀ c ∈ cps, validCodepoint c) :
    utf8Decode (utf8Encode cps) = some cps :=
  utf8DecodeLoop_utf8Encode cps (utf8Encode cps).length hv (Nat.le_refl _)

theorem utf8Decode_ne_nil (l : List Nat) (cps : List Nat)
    (h0 : ¬l.length = 0) (h : utf8Decode l = some cps) : cps ≠ [] := by
  rw [utf8Decode] at h
  match hL : l.length, h0 with
  | n + 1, _ =>
    rw [hL, utf8DecodeLoop, if_neg (by omega)] at h
    match h1 : utf8DecodeOne l with
    | none => rw [h1] at h; exact absurd h (by simp)
    | some (c, rest) =>
      rw [h1] at h
      dsimp only at h
      match h2 : utf8DecodeLoop n rest with
      | none => rw [h2] at h; exact absurd h (by simp)
      | some cs =>
        rw [h2, show Option.map (fun cs => c :: cs) (some cs) = some (c :: cs) from rfl,
          Option.some.injEq] at h
        rw [← h]
        exact List.cons_ne_nil c cs

/-! ### Helper lemmas: trailing NUL stripping -/

theorem rstripNul_replicate (k : Nat) : rstripNul (List.replicate k 0) = [] := by
  induction k with
  | zero => rfl
  | succ n ih => rw [List.replicate_succ, rstripNul, ih, if_pos rfl]

theorem rstripNul_append_of_right_nil (xs ys : List Nat) (h : rstripNul ys = []) :
    rstripNul (xs ++ ys) = rstripNul xs := by
  induction xs with
  | nil => rw [List.nil_append, h]; rfl
  | cons x xs ih => rw [List.cons_append, rstripNul, ih, rstripNul]

theorem utf8EncodeChar_ne_nil (c : Nat) : utf8EncodeChar c ≠ [] := by
  have := length_utf8EncodeChar c
  intro hE
  rw [hE] at this
  simp at this

theorem rstripNul_cons_of_ne (b : Nat) (bs : List Nat) (h : rstripNul bs ≠ []) :
    rstripNul (b :: bs) = b :: rstripNul bs := by
  rw [rstripNul]
  match hb : rstripNul bs, h with
  | x :: xs, _ => rfl

theorem rstripNul_singleton (a : Nat) (h : a ≠ 0) : rstripNul [a] = [a] := by
  rw [show rstripNul [a] = if a = 0 then [] else [a] from rfl, if_neg h]

theorem rstripNul_append_of_right_ne (xs ys : List Nat) (h : rstripNul ys ≠ []) :
    rstripNul (xs ++ ys) = xs ++ rstripNul ys := by
  induction xs with
  | nil => rw [List.nil_append, List.nil_append]
  | cons x xs ih =>
    rw [List.cons_append, List.cons_append,
      rstripNul_cons_of_ne x _ (by
        rw [ih]
        intro hE
        rw [List.append_eq_nil] at hE
        exact h hE.2),
      ih]

theorem rstripNul_concat_of_last_ne (xs : List Nat) (a : Nat) (h : a ≠ 0) :
    rstripNul (xs ++ [a]) = xs ++ [a] := by
  rw [rstripNul_append_of_right_ne xs [a]
      (by rw [rstripNul_singleton a h]; exact List.cons_ne_nil a []),
    rstripNul_singleton a h]

theorem rstripNul_utf8EncodeChar (c : Nat) (hc : c ≠ 0) :
    rstripNul (utf8EncodeChar c) = utf8EncodeChar c := by
  unfold utf8EncodeChar
  by_cases h1 : c < 128
  · rw [if_pos h1]
    exact rstripNul_singleton c hc
  · by_cases h2 : c < 2048
    · rw [if_neg h1, if_pos h2,
        show [192 + c / 64, 128 + c % 64] = [192 + c / 64] ++ [128 + c % 64] from rfl]
      exact rstripNul_concat_of_last_ne _ _ (by omega)
    · by_cases h3 : c < 65536
      · rw [if_neg h1, if_neg h2, if_pos h3,
          show [224 + c / 4096, 128 + c / 64 % 64, 128 + c % 64] =
            [224 + c / 4096, 128 + c / 64 % 64] ++ [128 + c % 64] from rfl]
        exact rstripNul_concat_of_last_ne _ _ (by omega)
      · rw [if_neg h1, if_neg h2, if_neg h3,
          show [240 + c / 262144, 128 + c / 4096 % 64, 128 + c / 64 % 64, 128 + c % 64] =
            [240 + c / 262144, 128 + c / 4096 % 64, 128 + c / 64 % 64] ++ [128 + c % 64] from rfl]
        exact rstripNul_concat_of_last_ne _ _ (by omega)

theorem utf8Encode_ne_nil (cps : List Nat) (h : cps ≠ []) : utf8Encode cps ≠ [] := by
  match cps, h with
  | c :: cs, _ =>
    rw [show utf8Encode (c :: cs) = utf8EncodeChar c ++ utf8Encode cs from rfl]
    intro hE
    rw [List.append_eq_nil] at hE
    exact utf8EncodeChar_ne_nil c hE.1

theorem rstripNul_utf8Encode (cps : List Nat) (h : ∀ c ∈ cps, c ≠ 0) :
    rstripNul (utf8Encode cps) = utf8Encode cps := by
  induction cps with
  | nil => rfl
  | cons c cs ih =>
    have hc : c ≠ 0 := h c (by simp)
    have ihc := ih (fun x hx => h x (by simp [hx]))
    rw [show utf8Encode (c :: cs) = utf8EncodeChar c ++ utf8Encode cs from rfl]
    by_cases hcs : cs = []
    · rw [hcs, show utf8Encode [] = [] from rfl, List.append_nil]
      exact rstripNul_utf8EncodeChar c hc
    · rw [rstripNul_append_of_right_ne _ _ (by rw [ihc]; exact utf8Encode_ne_nil cs hcs), ihc]

instance (r : WireRecord) : Decidable (ValidWire r) := by
  unfold ValidWire
  infer_instance

/-! ### Helper lemmas: one step of decodeEvents -/

theorem isEmpty_false_of_ne_nil (l : List Nat) (h : l ≠ []) : l.isEmpty = false := by
  cases l with
  | nil => exact absurd rfl h
  | cons x xs => rfl

theorem decodeEvents_cons (buf : List Nat) (hne : buf ≠ []) :
    decodeEvents buf =
      match decodeStep buf with
      | Except.error e => ([], some e)
      | Except.ok (ev, rest) => (ev :: (decodeEvents rest).1, (decodeEvents rest).2) := by
  have hE : buf.isEmpty = false := isEmpty_false_of_ne_nil buf hne
  match hL : buf.length with
  | 0 => exact absurd (List.eq_nil_of_length_eq_zero hL) hne
  | n + 1 =>
    unfold decodeEvents
    rw [hL]
    match hstep : decodeStep buf with
    | Except.error e => exact decodeLoop_cons_error n buf e hE hstep
    | Except.ok (ev, rest) =>
      have hr := decodeStep_length buf ev rest hstep
      rw [decodeLoop_cons_ok n buf ev rest hE hstep,
        decodeLoop_fuel n rest.length rest (by omega) (Nat.le_refl _)]

theorem decodeStep_of_len_pos (buf : List Nat) (len : Nat) (h16 : 16 ≤ buf.length)
    (hlen : readU32LE (buf.drop 12) = len) (h0 : 0 < len) :
    decodeStep buf =
      match utf8Decode (rstripNul ((buf.drop 16).take len)) with
      | none => Except.error DecodeErr.unicodeDecodeError
      | some cps =>
        Except.ok
          (⟨toSigned32 (readU32LE buf), readU32LE (buf.drop 4), readU32LE (buf.drop 8),
            if cps = [] then none else some cps⟩, buf.drop (16 + len)) := by
  unfold decodeStep
  rw [hlen, if_neg (by omega), if_pos h0]

theorem decodeStep_of_len_zero (buf : List Nat) (h16 : 16 ≤ buf.length)
    (hlen : readU32LE (buf.drop 12) = 0) :
    decodeStep buf =
      Except.ok
        (⟨toSigned32 (readU32LE buf), readU32LE (buf.drop 4), readU32LE (buf.drop 8),
          none⟩, buf.drop 16) := by
  unfold decodeStep
  rw [hlen, if_neg (by omega), if_neg (by omega)]

theorem decodeStep_name_not_empty (buf : List Nat) (ev : InotifyEvent) (rest : List Nat)
    (h : decodeStep buf = Except.ok (ev, rest)) : ev.name ≠ some [] := by
  unfold decodeStep at h
  repeat' split at h
  all_goals
    first
    | (rw [Except.ok.injEq, Prod.mk.injEq] at h
       rw [← h.1]
       simp
       try assumption)
    | exact absurd h (by simp)

theorem decodeLoop_name_not_empty (fuel : Nat) : ∀ (buf : List Nat) (e : InotifyEvent),
    e ∈ (decodeLoop fuel buf).1 → e.name ≠ some [] := by
  induction fuel with
  | zero =>
    intro buf e he
    rw [decodeLoop] at he
    exact absurd he (by simp)
  | succ f ih =>
    intro buf e he
    rw [decodeLoop] at he
    by_cases hE : buf.isEmpty
    · rw [if_pos hE] at he
      exact absurd he (by simp)
    · rw [if_neg hE] at he
      match hstep : decodeStep buf with
      | Except.error er =>
        rw [hstep] at he
        exact absurd he (by simp)
      | Except.ok (ev, rest) =>
        rw [hstep] at he
        dsimp only at he
        rw [List.mem_cons] at he
        cases he with
        | inl hev => rw [hev]; exact decodeStep_name_not_empty buf ev rest hstep
        | inr hmem => exact ih rest e hmem

/-! ### Claim theorems -/

/-- C4: get_mask_description appends a vocabulary entry name exactly when the
bitwise AND of the mask and the entry value is non-zero and equals the entry
value, joins matched names with a bar in declaration order, and returns the
literal string 0 when no entry matches; in particular describe(0) = 0. -/
theorem c4_mask_description_spec (mask : Nat) :
    get_mask_description mask = describeSpec mask ∧ get_mask_description 0 = "0" := by
  refine ⟨?_, rfl⟩
  unfold get_mask_description describeSpec
  have hfilter :
      constants.filter (fun p => mask &&& p.2 != 0 && (mask &&& p.2) ^^^ p.2 == 0) =
      constants.filter (fun p => decide (mask &&& p.2 ≠ 0 ∧ mask &&& p.2 = p.2)) := by
    apply List.filter_congr
    intro p _
    by_cases h1 : mask &&& p.2 = 0 <;> by_cases h2 : mask &&& p.2 = p.2 <;>
      simp [h1, h2, Nat.xor_eq_zero, bne, beq_eq_decide]
  rw [hfilter]

/-- C5: the claim that BUF_LEN never appears in get_mask_description output is
false on the code: the constants mapping contains the BUF_LEN entry (value
32768, colliding with IN_IGNORED) and the formatter iterates it with no
exclusion, so a mask with bit 15 set renders BUF_LEN. -/
theorem c5_buf_len_in_output :
    get_mask_description 32768 = "IN_IGNORED|BUF_LEN" ∧ ("BUF_LEN", 32768) ∈ constants :=
  ⟨rfl, by decide⟩

/-- C6: with no data pending on the channel, get_events_iter under a zero or
any finite timeout performs the readiness check, yields the empty sequence
with no error, and performs zero raw reads. -/
theorem c6_timeout_not_ready_empty (t : ℚ) (buf : List Nat) :
    get_events_iter false (some t) buf = some ([], none, 0) := rfl

/-- C7: counterexample — the Session keeps no closed flag, so calling close
twice invokes the raw close twice, the second invocation failing with EBADF;
the claim that the raw close can never run twice is false on the code. -/
theorem c7_double_close_cex :
    ((sessionClose (sessionClose ⟨true, true, 0⟩).1).1).rawCloseCalls = 2 ∧
    (sessionClose (sessionClose ⟨true, true, 0⟩).1).2 = some OSErr.ebadf :=
  ⟨rfl, rfl⟩

/-- C7 (amended): one Session close — as performed once by the context-manager
exit path — releases the readiness registration and invokes the raw close
exactly once, successfully; but close is unguarded, so a second call invokes
the raw close again and that invocation fails with EBADF. -/
theorem c7_close_single_amended (s : SessionSys) (h : s.fdOpen = true) :
    sessionExit s = (⟨false, false, s.rawCloseCalls + 1⟩, none) ∧
    (sessionClose (sessionExit s).1).1.rawCloseCalls = s.rawCloseCalls + 2 ∧
    (sessionClose (sessionExit s).1).2 = some OSErr.ebadf := by
  simp [sessionExit, sessionClose, selectorClose, osClose, h]

/-- C7 witness: the amended close behavior at a freshly opened session. -/
theorem c7_close_single_amended_w :
    sessionExit ⟨true, true, 0⟩ = (⟨false, false, 1⟩, none) ∧
    (sessionClose (sessionExit ⟨true, true, 0⟩).1).1.rawCloseCalls = 2 ∧
    (sessionClose (sessionExit ⟨true, true, 0⟩).1).2 = some OSErr.ebadf :=
  c7_close_single_amended ⟨true, true, 0⟩ rfl

/-- C9: the watch-id header field is decoded as a signed 32-bit integer: a
record whose wd bytes are FF FF FF FF and whose mask carries the
queue-overflow flag decodes to an event with watch id -1, passed through
unchanged, with no error. -/
theorem c9_overflow_wd_signed (mask cookie : Nat) (hm : mask < 4294967296)
    (hc : cookie < 4294967296) (hover : mask &&& 16384 ≠ 0) :
    decodeEvents ([255, 255, 255, 255] ++ u32LE mask ++ u32LE cookie ++ u32LE 0) =
      ([⟨-1, mask, cookie, none⟩], none) := by
  have hbuf : [255, 255, 255, 255] ++ u32LE mask ++ u32LE cookie ++ u32LE 0 =
      encodeAll [⟨-1, mask, cookie, []⟩] := by
    rw [show encodeAll [⟨-1, mask, cookie, []⟩] =
        encodeWire ⟨-1, mask, cookie, []⟩ ++ [] from rfl, List.append_nil,
      show encodeWire ⟨-1, mask, cookie, []⟩ =
        i32LE (-1) ++ u32LE mask ++ u32LE cookie ++ u32LE 0 ++ [] from rfl,
      List.append_nil, show i32LE (-1) = [255, 255, 255, 255] from by decide]
  rw [hbuf, decodeEvents_encodeAll [⟨-1, mask, cookie, []⟩]
    (by
      intro r hr
      rw [List.mem_singleton] at hr
      rw [hr]
      exact ⟨by norm_num, by norm_num, hm, hc, by norm_num, rfl⟩)]
  rfl

/-- C9 witness: a concrete queue-overflow record with wd bytes FF FF FF FF. -/
theorem c9_overflow_wd_signed_w :
    decodeEvents ([255, 255, 255, 255] ++ u32LE 16384 ++ u32LE 0 ++ u32LE 0) =
      ([⟨-1, 16384, 0, none⟩], none) :=
  c9_overflow_wd_signed 16384 0 (by decide) (by decide) (by decide)

/-- C10: the eager get_events returns exactly what the lazy get_events_iter
yields over a freshly registered selector for the same descriptor state and
timeout: the ok list is the iterator's event list, an error is the iterator's
stopping error, and the raw read counts agree. -/
theorem c10_get_events_eq_iter (pending : Bool) (timeout : Option ℚ) (buf : List Nat) :
    get_events pending timeout buf =
      (get_events_iter pending timeout buf).map
        (fun r =>
          (match r.2.1 with
           | some e => Except.error e
           | none => Except.ok r.1, r.2.2)) := by
  unfold get_events get_events_iter selectKeys
  cases pending with
  | false =>
    cases timeout with
    | none => rfl
    | some t => rfl
  | true =>
    match hd : decodeEvents buf with
    | (evs, some e) => simp [hd]
    | (evs, none) => simp [hd]

/-- C1: counterexample — a 16-byte buffer whose header declares name-length 5
with zero bytes remaining after the header decodes with no error at all
(Python slicing silently truncates), instead of reporting MalformedRecord as
the claim requires. -/
theorem c1_overlength_silent_truncation_cex :
    readU32LE (List.drop 12 [1, 0, 0, 0, 0, 0, 0, 0, 0, 0, 0, 0, 5, 0, 0, 0]) = 5 ∧
    List.length [1, 0, 0, 0, 0, 0, 0, 0, 0, 0, 0, 0, 5, 0, 0, 0] = 16 ∧
    decodeEvents [1, 0, 0, 0, 0, 0, 0, 0, 0, 0, 0, 0, 5, 0, 0, 0] =
      ([⟨1, 0, 0, none⟩], none) :=
  ⟨by decide, by decide, by decide⟩

/-- C1 (amended): if fewer than the 16 header bytes remain, decoding reports
the malformed-record error (ValueError) and yields nothing; if the declared
name-length exceeds the bytes remaining after the header, decoding does NOT
report a malformed-record error: it truncates the name to the available bytes
and consumes the rest of the buffer as this single record (reporting at most
an encoding error), and in neither case is any byte outside the buffer read
(the decoder is total over the buffer contents). -/
theorem c1_truncation_safety_amended (buf : List Nat) :
    (buf ≠ [] → buf.length < 16 → decodeEvents buf = ([], some DecodeErr.valueError)) ∧
    (∀ len, 16 ≤ buf.length → readU32LE (buf.drop 12) = len → buf.length - 16 < len →
      (decodeEvents buf).2 ≠ some DecodeErr.valueError ∧
      (decodeEvents buf).1.length ≤ 1) := by
  constructor
  · intro hne hlt
    rw [decodeEvents_cons buf hne,
      show decodeStep buf = Except.error DecodeErr.valueError from by
        unfold decodeStep
        rw [if_pos hlt]]
  · intro len h16 hlen hgt
    have hne : buf ≠ [] := by
      intro h
      rw [h] at h16
      simp at h16
    have h0 : 0 < len := by omega
    rw [decodeEvents_cons buf hne, decodeStep_of_len_pos buf len h16 hlen h0]
    match hdec : utf8Decode (rstripNul ((buf.drop 16).take len)) with
    | none => exact ⟨by simp, by simp⟩
    | some cps =>
      have hrest : buf.drop (16 + len) = [] := List.drop_eq_nil_of_le (by omega)
      rw [hrest]
      exact ⟨by simp [decodeEvents, decodeLoop], by simp [decodeEvents, decodeLoop]⟩

/-- C1 witness: the amended behavior at a 3-byte buffer (short header) and at
a 16-byte buffer whose header declares name-length 5. -/
theorem c1_truncation_safety_amended_w :
    decodeEvents [1, 0, 0] = ([], some DecodeErr.valueError) ∧
    (decodeEvents [2, 0, 0, 0, 0, 0, 0, 0, 0, 0, 0, 0, 5, 0, 0, 0]).2 ≠
      some DecodeErr.valueError :=
  ⟨(c1_truncation_safety_amended [1, 0, 0]).1 (by decide) (by decide),
   ((c1_truncation_safety_amended [2, 0, 0, 0, 0, 0, 0, 0, 0, 0, 0, 0, 5, 0, 0, 0]).2 5
     (by decide) (by decide) (by decide)).1⟩

/-- C2: for every decoded record, if the declared name-length is zero, or the
name bytes become empty after stripping trailing NULs, the event's name is
absent; otherwise the name is the UTF-8 decoding of the stripped bytes and is
non-empty; and no event of any decoded stream carries an empty-string name. -/
theorem c2_name_normalization (buf : List Nat) (len : Nat) (h16 : 16 ≤ buf.length)
    (hlen : readU32LE (buf.drop 12) = len) :
    ((len = 0 ∨ rstripNul ((buf.drop 16).take len) = []) →
      (decodeEvents buf).1.head? =
        some ⟨toSigned32 (readU32LE buf), readU32LE (buf.drop 4),
          readU32LE (buf.drop 8), none⟩) ∧
    (∀ cps, rstripNul ((buf.drop 16).take len) ≠ [] →
      utf8Decode (rstripNul ((buf.drop 16).take len)) = some cps →
      (decodeEvents buf).1.head? =
        some ⟨toSigned32 (readU32LE buf), readU32LE (buf.drop 4),
          readU32LE (buf.drop 8), some cps⟩ ∧ cps ≠ []) ∧
    (∀ e ∈ (decodeEvents buf).1, e.name ≠ some []) := by
  have hne : buf ≠ [] := by
    intro h
    rw [h] at h16
    simp at h16
  refine ⟨?_, ?_, ?_⟩
  · intro hcase
    rw [decodeEvents_cons buf hne]
    by_cases h0 : len = 0
    · rw [decodeStep_of_len_zero buf h16 (by rw [hlen, h0])]
      rfl
    · have hpos : 0 < len := Nat.pos_of_ne_zero h0
      have hstrip : rstripNul ((buf.drop 16).take len) = [] := hcase.resolve_left h0
      rw [decodeStep_of_len_pos buf len h16 hlen hpos, hstrip,
        show utf8Decode [] = some [] from rfl]
      rfl
  · intro cps hne2 hdec
    have hpos : 0 < len := by
      rcases Nat.eq_zero_or_pos len with h0 | h0
      · exact absurd (by rw [h0]; rfl) hne2
      · exact h0
    have hcps : cps ≠ [] :=
      utf8Decode_ne_nil _ cps
        (by
          intro hL
          exact hne2 (List.eq_nil_of_length_eq_zero hL)) hdec
    refine ⟨?_, hcps⟩
    rw [decodeEvents_cons buf hne, decodeStep_of_len_pos buf len h16 hlen hpos, hdec]
    dsimp only
    rw [if_neg hcps]
    rfl
  · intro e he
    exact decodeLoop_name_not_empty buf.length buf e he

/-- C2 witness: a record with name bytes ab NUL NUL decodes to name ab. -/
theorem c2_name_normalization_w :
    (decodeEvents [1, 0, 0, 0, 2, 0, 0, 0, 3, 0, 0, 0, 4, 0, 0, 0, 97, 98, 0, 0]).1.head? =
      some ⟨1, 2, 3, some [97, 98]⟩ ∧ ([97, 98] : List Nat) ≠ [] :=
  (c2_name_normalization [1, 0, 0, 0, 2, 0, 0, 0, 3, 0, 0, 0, 4, 0, 0, 0, 97, 98, 0, 0] 4
    (by decide) (by decide)).2.1 [97, 98] (by decide) (by decide)

/-- C3: a buffer of N concatenated valid wire records decodes to exactly N
events, one per record in buffer order, with no error; the buffer length is
the sum of the per-record advances 16 + name-length, so the whole buffer is
consumed with no leftover. -/
theorem c3_multi_record_decode (rs : List WireRecord) (hv : ∀ r ∈ rs, ValidWire r) :
    decodeEvents (encodeAll rs) = (rs.map wireEvent, none) ∧
    (decodeEvents (encodeAll rs)).1.length = rs.length ∧
    (encodeAll rs).length = (rs.map (fun r => 16 + r.nameBytes.length)).sum := by
  refine ⟨decodeEvents_encodeAll rs hv, ?_, length_encodeAll rs⟩
  rw [decodeEvents_encodeAll rs hv]
  simp

/-- C3 witness: two concatenated records (one named foo with NUL padding, one
queue-overflow record with empty name) decode to exactly those two events. -/
theorem c3_multi_record_decode_w :
    decodeEvents (encodeAll [⟨1, 256, 7, [102, 111, 111, 0]⟩, ⟨-1, 16384, 0, []⟩]) =
      ([⟨1, 256, 7, some [102, 111, 111]⟩, ⟨-1, 16384, 0, none⟩], none) :=
  (c3_multi_record_decode [⟨1, 256, 7, [102, 111, 111, 0]⟩, ⟨-1, 16384, 0, []⟩]
    (by decide)).1

/-- C8: encoding a valid (watch id, mask, cookie, name) tuple into the wire
header-plus-name format with NUL padding and then decoding reproduces the
original event, with the name normalized to absent when it is empty. -/
theorem c8_encode_decode_roundtrip (wd : Int) (mask cookie : Nat) (name : List Nat)
    (pad : Nat) (hw1 : -2147483648 ≤ wd) (hw2 : wd < 2147483648)
    (hm : mask < 4294967296) (hc : cookie < 4294967296)
    (hlen : (utf8Encode name).length + pad < 4294967296)
    (hname : ∀ c ∈ name, validCodepoint c ∧ c ≠ 0) :
    decodeEvents (encodeWire ⟨wd, mask, cookie, utf8Encode name ++ List.replicate pad 0⟩) =
      ([⟨wd, mask, cookie, if name = [] then none else some name⟩], none) := by
  have hval : ∀ c ∈ name, validCodepoint c := fun c hx => (hname c hx).1
  have hnz : ∀ c ∈ name, c ≠ 0 := fun c hx => (hname c hx).2
  have hstrip : rstripNul (utf8Encode name ++ List.replicate pad 0) = utf8Encode name := by
    rw [rstripNul_append_of_right_nil _ _ (rstripNul_replicate pad),
      rstripNul_utf8Encode name hnz]
  have hdec : utf8Decode (rstripNul (utf8Encode name ++ List.replicate pad 0)) = some name := by
    rw [hstrip]
    exact utf8Decode_utf8Encode name hval
  have hv : ValidWire ⟨wd, mask, cookie, utf8Encode name ++ List.replicate pad 0⟩ := by
    refine ⟨hw1, hw2, hm, hc, ?_, ?_⟩
    · rw [List.length_append, List.length_replicate]
      omega
    · rw [hdec]
      rfl
  have hall := decodeEvents_encodeAll [⟨wd, mask, cookie, utf8Encode name ++ List.replicate pad 0⟩]
    (by
      intro r hr
      rw [List.mem_singleton] at hr
      rw [hr]
      exact hv)
  rw [show encodeAll [⟨wd, mask, cookie, utf8Encode name ++ List.replicate pad 0⟩] =
      encodeWire ⟨wd, mask, cookie, utf8Encode name ++ List.replicate pad 0⟩ ++ [] from rfl,
    List.append_nil] at hall
  rw [hall]
  simp only [List.map_cons, List.map_nil]
  unfold wireEvent
  dsimp only
  rw [hdec]

/-- C8 witness: the tuple (5, 256, 7, foo) with 13 bytes of NUL padding
decodes back to itself. -/
theorem c8_encode_decode_roundtrip_w :
    decodeEvents (encodeWire ⟨5, 256, 7, utf8Encode [102, 111, 111] ++ List.replicate 13 0⟩) =
      ([⟨5, 256, 7, some [102, 111, 111]⟩], none) :=
  c8_encode_decode_roundtrip 5 256 7 [102, 111, 111] 13 (by decide) (by decide)
    (by decide) (by decide) (by decide) (by decide)

end Inotifyx
